import Mathlib

/-!
Shallow embedding of the kit-to-plate well mapping engine of the HTE-D2D
backend (src/backend/app.py: `calculate_well_mappings`,
`calculate_flexible_well_mappings`, `apply_kit_design_to_procedure`, and
src/backend/routes/kit.py: the kit-size computation inside `analyze_kit`).

Modelling conventions:
- A well identifier string such as "E7" is modelled by the structure `Well`
  holding the Unicode code point of its row character (`'A'` = 65) and its
  column number exactly as printed.  The Python code only ever builds such
  identifiers with `f"{chr(code)}{col}"`, and `(code, col) ↦ chr(code) ++ str(col)`
  is injective, so `Well` equality coincides with identifier-string equality.
- Python `int` arithmetic on `ord`/column values is modelled with `Int`.
- Python dicts are modelled as association lists in insertion order
  (`pyDictSet` = `d[k] = v`, `pyFind` = lookup / `in`), which is exactly
  CPython's ordered-dict behaviour for the operations the source uses.
- A handful of inputs make the source raise (`ord` of a multi-character
  string, `int(...)` of a non-numeric string, `chr` outside the Unicode
  range); these are noted at each definition.  No claim depends on them.
-/

/-- A well identifier `{Letter}{Number}`: `rowCode` is the code point of the
row character (`'A'` = 65) and `col` the printed column number. -/
structure Well where
  rowCode : Int
  col : Int
deriving DecidableEq, Repr

/-- Destination plate geometry, from `plate_configs` in
`calculate_flexible_well_mappings` (src/backend/app.py lines 1671-1675). -/
structure PlateCfg where
  rows : Int
  cols : Int
deriving DecidableEq, Repr

/-- The `plate_configs.get(destination_plate, plate_configs['96'])` lookup:
24-well is 4x6, 48-well is 6x8, 96-well is 8x12, anything else defaults
to the 96-well geometry. -/
def plateConfig (destination_plate : String) : PlateCfg :=
  if destination_plate = "24" then ⟨4, 6⟩
  else if destination_plate = "48" then ⟨6, 8⟩
  else if destination_plate = "96" then ⟨8, 12⟩
  else ⟨8, 12⟩

/-- Python dict lookup `d.get(k)` / `k in d` on an insertion-ordered
association list. -/
def pyFind {κ : Type} {α : Type} [DecidableEq κ] : List (κ × α) → κ → Option α
  | [], _ => none
  | p :: d, k => if p.1 = k then some p.2 else pyFind d k

/-- Python `d[k] = v`: replace the value at an existing key in place,
otherwise append the new key at the end. -/
def pyDictSet {κ : Type} {α : Type} [DecidableEq κ] : List (κ × α) → κ → α → List (κ × α)
  | [], k, v => [(k, v)]
  | p :: d, k, v => if p.1 = k then (k, v) :: d else p :: pyDictSet d k v

/-- The `if k not in d: d[k] = []` followed by `d[k].append(v)` pattern used
to accumulate destination lists in `calculate_flexible_well_mappings`. -/
def pyDictAppend {κ : Type} {α : Type} [DecidableEq κ] : List (κ × List α) → κ → α → List (κ × List α)
  | [], k, v => [(k, [v])]
  | p :: d, k, v => if p.1 = k then (p.1, p.2 ++ [v]) :: d else p :: pyDictAppend d k v

/-- Insert an int into an ascending list, keeping it ascending. -/
def insertSorted (x : Int) : List Int → List Int
  | [] => [x]
  | y :: t => if x ≤ y then x :: y :: t else y :: insertSorted x t

/-- Python `sorted(<set of ints>)`: the distinct elements in ascending order
(insertion sort; on distinct ints this is the unique ascending arrangement,
extensionally equal to the source's `sorted`). -/
def pySortedSet (l : List Int) : List Int :=
  l.dedup.foldr insertSorted []

/-- Python `min` over a nonempty collection of ints (0 is never used: every
call site is guarded by nonemptiness). -/
def pyMinI : List Int → Int
  | [] => 0
  | h :: t => t.foldl min h

/-- Python `max` over a nonempty collection of ints. -/
def pyMaxI : List Int → Int
  | [] => 0
  | h :: t => t.foldl max h

/-- Python `range(a, b)` over ints. -/
def pyRange (a b : Int) : List Int :=
  (List.range (b - a).toNat).map (fun (i : Nat) => a + (i : Int))

/-- Python `s.startswith(pre)`. -/
def pyStartsWith (s pre : String) : Bool :=
  pre.toList.isPrefixOf s.toList

/-- Split a character list at every `'-'`, keeping empty segments. -/
def splitDashChars : List Char → List (List Char)
  | [] => [[]]
  | c :: rest =>
    if c = '-' then [] :: splitDashChars rest
    else
      match splitDashChars rest with
      | [] => [[c]]
      | seg :: segs => (c :: seg) :: segs

/-- Python `s.split("-")`: the dash-delimited segments, empty segments
included (`"a--b" ↦ ["a", "", "b"]`, `"" ↦ [""]`). -/
def pySplitDash (s : String) : List String :=
  (splitDashChars s.toList).map (fun cs => String.mk cs)

/-- Parse a nonempty all-digit string to the `Nat` it denotes; `none`
otherwise.  Models Python `int(s)` at the call sites of the resolver, where
`s` is a dash-delimited segment (so it can never carry a sign, and the
source's whitespace/underscore tolerances cannot occur); a failing parse
raises `ValueError` in the source. -/
def pyParseDigits (s : String) : Option Nat :=
  let cs := s.toList
  if cs ≠ [] ∧ cs.all (fun c => c.isDigit) then
    some (cs.foldl (fun n c => n * 10 + (c.toNat - 48)) 0)
  else none

/-- Python `int(s)` for a dash-delimited segment, as an `Int`. -/
def pyParseInt (s : String) : Option Int :=
  (pyParseDigits s).map (fun n => (n : Int))

/-- The single character of a one-character string, `none` otherwise.  Used to
model `ord(s)` (which raises a `TypeError` in the source when `s` is not a
single character) and row-letter segments of position ids. -/
def singleCharSeg (s : String) : Option Char :=
  match s.toList with
  | [c] => some c
  | _ => none

/-- A well mapping: kit well -> ordered list of destination wells, as an
insertion-ordered dict. -/
abbrev Mappings := List (Well × List Well)

/-- The legacy string-directive portion of `calculate_well_mappings`
(src/backend/app.py lines 1424-1651).  `kitRows`/`kitCols` are the sorted
distinct row codes / column numbers of the kit wells; each named tag folds
over the kit wells assigning `mappings[well] = [targets]`.  None of the
branches reads the destination plate, and none performs any bounds check.
Modelling notes: a `"row-"` directive whose suffix is not a single character
produces destination strings that are not letter+number identifiers (the
model returns the empty mapping there); a `"col-"`/`"cols-"` suffix that is
not a decimal literal, and a `"rows-"` start row that is not a single
character, make the source raise (`int`/`ord`), modelled as the empty
mapping. -/
def legacy_well_mappings (position : String) (kitWells : List Well) : Mappings :=
  let kitRows := pySortedSet (kitWells.map (·.rowCode))
  let kitCols := pySortedSet (kitWells.map (·.col))
  let anchored := fun (anchors : List (Int × Int)) =>
    kitWells.foldl (fun m w =>
      let ro : Int := kitRows.indexOf w.rowCode
      let co : Int := kitCols.indexOf w.col
      pyDictSet m w (anchors.map (fun a => ⟨a.1 + ro, a.2 + co⟩))) []
  if position = "top-left" then anchored [(65, 1)]
  else if position = "top-right" then anchored [(65, 7)]
  else if position = "bottom-left" then anchored [(69, 1)]
  else if position = "bottom-right" then anchored [(69, 7)]
  else if position = "all-quadrants" then anchored [(65, 1), (65, 7), (69, 1), (69, 7)]
  else if pyStartsWith position "row-" then
    match singleCharSeg ((pySplitDash position).getD 1 "") with
    | some c =>
      let kitColsR := pySortedSet (kitWells.map (·.col))
      kitWells.foldl (fun m w =>
        let co : Int := kitColsR.indexOf w.col
        pyDictSet m w [⟨(c.toNat : Int), 1 + co⟩]) []
    | none => []
  else if pyStartsWith position "col-" then
    match pyParseInt ((pySplitDash position).getD 1 "") with
    | some tc =>
      let kitRowsC := pySortedSet (kitWells.map (·.rowCode))
      kitWells.foldl (fun m w =>
        let ro : Int := kitRowsC.indexOf w.rowCode
        pyDictSet m w [⟨65 + ro, tc⟩]) []
    | none => []
  else if position = "top-quadrants" then anchored [(65, 1), (65, 7)]
  else if position = "bottom-quadrants" then anchored [(69, 1), (69, 7)]
  else if position = "left-quadrants" then anchored [(65, 1), (69, 1)]
  else if position = "right-quadrants" then anchored [(65, 7), (69, 7)]
  else if pyStartsWith position "rows-" then
    let parts := pySplitDash position
    if parts.length ≥ 3 then
      match singleCharSeg (parts.getD 1 "") with
      | some c => anchored [((c.toNat : Int), 1)]
      | none => []
    else []
  else if pyStartsWith position "cols-" then
    let parts := pySplitDash position
    if parts.length ≥ 3 then
      match pyParseInt (parts.getD 1 "") with
      | some sc => anchored [(65, sc)]
      | none => []
    else []
  else []

/-- A block of the structured `block_placement` strategy: `startRow` is the
code point of the (single-character) `startRow` string, `startCol` the
`startCol` int; the source's defaults are `'A'` (65) and 1. -/
structure Block where
  startRow : Int
  startCol : Int
deriving DecidableEq, Repr

/-- A structured placement directive, as read by
`calculate_flexible_well_mappings`: `strategy` defaults to
`"exact_placement"`, `positions` and `blocks` to `[]` when absent from the
request; the `kit_size` sub-object is read but never used (only printed), so
it is not modelled. -/
structure FlexPos where
  strategy : String
  positions : List String
  blocks : List Block
deriving DecidableEq, Repr

/-- `calculate_flexible_well_mappings` (src/backend/app.py lines 1653-1868).
Each strategy folds over the requested positions (or blocks) and the kit
wells, appending every computed destination that passes the plate-bound
guard `ord(dest_row) <= ord('A') + rows - 1 and dest_col <= cols`.
Modelling notes: a `"row-"` position id whose suffix is not a single
character, and a `"col-"` suffix that is not a decimal literal, make the
source raise (`ord`/`int`); they are modelled as skipping that position id.
All modelled kit wells satisfy the source's `len(well) >= 2` guard. -/
def calculate_flexible_well_mappings (p : FlexPos) (kitWells : List Well)
    (destination_plate : String) : Mappings :=
  if kitWells = [] then [] else
  let cfg := plateConfig destination_plate
  if p.strategy = "exact_placement" then
    kitWells.foldl (fun m w =>
      let kro := w.rowCode - 65
      let kco := w.col - 1
      let dr := 65 + kro
      let dc := 1 + kco
      if dr ≤ 65 + cfg.rows - 1 ∧ dc ≤ cfg.cols then pyDictSet m w [⟨dr, dc⟩] else m) []
  else if p.strategy = "row_placement" then
    p.positions.foldl (fun m pid =>
      if pyStartsWith pid "row-" then
        match singleCharSeg ((pySplitDash pid).getD 1 "") with
        | some c =>
          kitWells.foldl (fun m w =>
            let kro := w.rowCode - 65
            let dr := (c.toNat : Int) + kro
            let dc := w.col
            if dr ≤ 65 + cfg.rows - 1 ∧ dc ≤ cfg.cols then pyDictAppend m w ⟨dr, dc⟩ else m) m
        | none => m
      else m) []
  else if p.strategy = "col_placement" then
    p.positions.foldl (fun m pid =>
      if pyStartsWith pid "col-" then
        match pyParseInt ((pySplitDash pid).getD 1 "") with
        | some tc =>
          kitWells.foldl (fun m w =>
            let kco := w.col - 1
            let dr := w.rowCode
            let dc := tc + kco
            if dr ≤ 65 + cfg.rows - 1 ∧ dc ≤ cfg.cols then pyDictAppend m w ⟨dr, dc⟩ else m) m
        | none => m
      else m) []
  else if p.strategy = "quadrant_placement" then
    let offsets : List (String × (Int × Int)) :=
      if destination_plate = "48" then
        [("top-left", (0, 0)), ("top-right", (2, 0))]
      else
        [("top-left", (0, 0)), ("top-right", (0, 6)), ("bottom-left", (4, 0)), ("bottom-right", (4, 6))]
    p.positions.foldl (fun m pid =>
      match pyFind offsets pid with
      | some qo =>
        kitWells.foldl (fun m w =>
          let kro := w.rowCode - 65
          let kco := w.col - 1
          let dr := 65 + qo.1 + kro
          let dc := 1 + qo.2 + kco
          if dr ≤ 65 + cfg.rows - 1 ∧ dc ≤ cfg.cols then pyDictAppend m w ⟨dr, dc⟩ else m) m
      | none => m) []
  else if p.strategy = "row_pair_placement" then
    let offsets : List (String × Int) := [("AB", 0), ("CD", 2), ("EF", 4), ("GH", 6)]
    p.positions.foldl (fun m pid =>
      match pyFind offsets pid with
      | some ro =>
        kitWells.foldl (fun m w =>
          let kro := w.rowCode - 65
          let dr := 65 + ro + kro
          let dc := w.col
          if dr ≤ 65 + cfg.rows - 1 ∧ dc ≤ cfg.cols then pyDictAppend m w ⟨dr, dc⟩ else m) m
      | none => m) []
  else if p.strategy = "half_placement" then
    let offsets : List (String × Int) := [("upper", 0), ("lower", 4)]
    p.positions.foldl (fun m pid =>
      match pyFind offsets pid with
      | some ro =>
        kitWells.foldl (fun m w =>
          let kro := w.rowCode - 65
          let dr := 65 + ro + kro
          let dc := w.col
          if dr ≤ 65 + cfg.rows - 1 ∧ dc ≤ cfg.cols then pyDictAppend m w ⟨dr, dc⟩ else m) m
      | none => m) []
  else if p.strategy = "block_placement" then
    p.blocks.foldl (fun m b =>
      kitWells.foldl (fun m w =>
        let kro := w.rowCode - 65
        let kco := w.col - 1
        let dr := b.startRow + kro
        let dc := b.startCol + kco
        if dr ≤ 65 + cfg.rows - 1 ∧ dc ≤ cfg.cols then pyDictAppend m w ⟨dr, dc⟩ else m) m) []
  else []

/-- A placement directive: either a legacy string tag or a structured
strategy object (the `isinstance(position, dict)` test in
`calculate_well_mappings`). -/
inductive KitPosition where
  | str (s : String)
  | obj (p : FlexPos)
deriving DecidableEq

/-- `calculate_well_mappings` (src/backend/app.py lines 1407-1651): an empty
kit-wells list yields the empty mapping; a structured directive is delegated
to `calculate_flexible_well_mappings`; a string directive takes the legacy
path.  The kit-size descriptor argument is modelled by its `wells` field,
the only field the resolver reads. -/
def calculate_well_mappings (position : KitPosition) (kitWells : List Well)
    (destination_plate : String) : Mappings :=
  if kitWells = [] then []
  else
    match position with
    | .obj p => calculate_flexible_well_mappings p kitWells destination_plate
    | .str s => legacy_well_mappings s kitWells

/-- A material record as handled by the merge engine (`aliasName` models the
`alias` key, a reserved word here).  The engine reads and writes only
`name`, `amount` and `source`; the identity fields are carried along to
express frame properties.  Fields it never reads (molecular weight, barcode,
role) are not modelled. -/
structure Material where
  name : String
  aliasName : String
  cas : String
  smiles : String
  amount : String
  unit : String
  source : String
deriving DecidableEq, Repr

/-- A procedure record `{well, materials}`. -/
structure ProcItem where
  well : Well
  materials : List Material
deriving DecidableEq, Repr

/-- Modelled: Python `float(s)` restricted to unsigned decimal-integer
literals (success exactly on nonempty digit strings).  The source also
parses signed, fractional and exponent forms; no claim depends on those,
and the values parsed here are exactly representable as floats. -/
def pyFloatParse (s : String) : Option Nat :=
  pyParseDigits s

/-- Python `str(...)` of a float holding the exact integer `n` (below 2^53):
the decimal digits followed by `".0"`. -/
def pyFloatStr (n : Nat) : String :=
  toString n ++ ".0"

/-- The amount-accumulation step of `apply_kit_design_to_procedure`
(src/backend/app.py lines 1392-1399): parse both amounts as floats and store
the stringified sum; if either parse fails, overwrite with the incoming raw
amount string. -/
def addAmount (existing km : Material) : Material :=
  match pyFloatParse existing.amount, pyFloatParse km.amount with
  | some a, some b => { existing with amount := pyFloatStr (a + b) }
  | _, _ => { existing with amount := km.amount }

/-- Replace the first material whose `name` equals `km.name` by its
amount-accumulated version (the in-place mutation of the record found by
`next(...)` in the source). -/
def updateFirstMat : List Material → Material → List Material
  | [], _ => []
  | m :: rest, km => if m.name = km.name then addAmount m km :: rest else m :: updateFirstMat rest km

/-- Merge one kit material into a well's material list (src/backend/app.py
lines 1385-1402): if a material of the same `name` already exists, accumulate
into the first such entry; otherwise append the kit material at the end. -/
def mergeMaterial (mats : List Material) (km : Material) : List Material :=
  if mats.any (fun m => m.name = km.name) then updateFirstMat mats km
  else mats ++ [km]

/-- Merge one kit material into the procedure entry stored at key `t`
(`procedure_dict[target_well]['materials']` mutation). -/
def updateWell : List (Well × ProcItem) → Well → Material → List (Well × ProcItem)
  | [], _, _ => []
  | p :: d, t, km =>
    if p.1 = t then (p.1, { p.2 with materials := mergeMaterial p.2.materials km }) :: d
    else p :: updateWell d t km

/-- The `if target_well not in procedure_dict: procedure_dict[target_well] =
{'well': target_well, 'materials': []}` step. -/
def ensureWell (d : List (Well × ProcItem)) (t : Well) : List (Well × ProcItem) :=
  if (pyFind d t).isSome then d else d ++ [(t, ⟨t, []⟩)]

/-- `apply_kit_design_to_procedure` (src/backend/app.py lines 1357-1405):
index the current procedure by well, compute the well mapping, fold every
design entry's materials (tagged `source = "kit_upload"`) into every target
well of that kit well, and return the dict's values. -/
def apply_kit_design_to_procedure (design : List (Well × List Material))
    (position : KitPosition) (kitWells : List Well) (current : List ProcItem)
    (destination_plate : String) : List ProcItem :=
  let procDict := current.foldl (fun d it => pyDictSet d it.well it) []
  let wm := calculate_well_mappings position kitWells destination_plate
  let finalDict := design.foldl (fun d kv =>
    match pyFind wm kv.1 with
    | none => d
    | some targets =>
      targets.foldl (fun d t =>
        kv.2.foldl (fun d mat => updateWell d t { mat with source := "kit_upload" })
          (ensureWell d t)) d) procDict
  finalDict.map (·.2)

/-- The kit-size descriptor computed by `analyze_kit` (the fields the claims
mention; the `row_range`/`col_range` display strings are not modelled). -/
structure KitSize where
  rows : Int
  columns : Int
  total_wells : Int
  content_wells : Int
  wells : List Well
deriving DecidableEq, Repr

/-- The kit-size computation of `analyze_kit` (src/backend/routes/kit.py
lines 170-216): collect the distinct row codes and column numbers of the
content wells, span the inclusive min..max ranges on both axes, and
enumerate every well of that bounding box.  Modelling notes: every modelled
content well satisfies the `len(well) >= 2` parse guard, so the degenerate
`else` branch (reachable in the source only for unparseable identifiers, and
crashing there on `min` of an empty set) is modelled as a zero descriptor;
the source returns `wells` sorted by identifier string — a permutation of
the row-major enumeration used here, which no claim distinguishes. -/
def analyze_kit_size (contentWells : List Well) : KitSize :=
  let rows := (contentWells.map (·.rowCode)).dedup
  let cols := (contentWells.map (·.col)).dedup
  if rows = [] ∨ cols = [] then ⟨0, 0, 0, (contentWells.length : Int), contentWells⟩
  else
    let minRow := pyMinI rows
    let maxRow := pyMaxI rows
    let minCol := pyMinI cols
    let maxCol := pyMaxI cols
    let kitRows := maxRow - minRow + 1
    let kitCols := maxCol - minCol + 1
    let allKitWells := (pyRange minRow (maxRow + 1)).flatMap (fun r =>
      (pyRange minCol (maxCol + 1)).map (fun c => Well.mk r c))
    ⟨kitRows, kitCols, kitRows * kitCols, (contentWells.length : Int), allKitWells⟩

/-- All destination wells appearing in a mapping's lists. -/
def destsOf : Mappings → List Well
  | [] => []
  | kv :: m => kv.2 ++ destsOf m

/-- The destination list a mapping assigns to a kit well (empty when the kit
well is absent). -/
def destsAt (m : Mappings) (w : Well) : List Well :=
  (pyFind m w).getD []

/-- The names of all materials occurring in a kit design's well lists. -/
def designNames (design : List (Well × List Material)) : List String :=
  (design.flatMap (·.2)).map (·.name)

/-- Membership of a destination well in a destination plate's valid bounds:
row character between `'A'` and the plate's last row, column between 1 and
the plate's column count (spec §3: "A plate's valid well set is the
Cartesian product of its row and column ranges starting at `A1`"). -/
def wellInBounds (w : Well) (destination_plate : String) : Prop :=
  let cfg := plateConfig destination_plate
  65 ≤ w.rowCode ∧ w.rowCode ≤ 65 + cfg.rows - 1 ∧ 1 ≤ w.col ∧ w.col ≤ cfg.cols

instance (w : Well) (dp : String) : Decidable (wellInBounds w dp) := by
  unfold wellInBounds; infer_instance

/-! ### Generic fold and association-list lemmas -/

theorem foldl_inv {α β : Type} {P : β → Prop} {f : β → α → β} (l : List α)
    (hstep : ∀ b a, a ∈ l → P b → P (f b a)) :
    ∀ init, P init → P (l.foldl f init) := by
  induction l with
  | nil => intro init h0; exact h0
  | cons x t ih =>
    intro init h0
    exact ih (fun b a ha hb => hstep b a (List.mem_cons_of_mem _ ha) hb) _
      (hstep init x (List.mem_cons_self _ _) h0)

theorem foldl_estab {α β : Type} {P : β → Prop} {f : β → α → β} (l : List α) (x : α)
    (hx : x ∈ l) (hest : ∀ b, P (f b x))
    (hstep : ∀ b a, a ∈ l → P b → P (f b a)) :
    ∀ init, P (l.foldl f init) := by
  induction l with
  | nil => cases hx
  | cons y t ih =>
    intro init
    rcases List.mem_cons.mp hx with h | h
    · subst h
      exact foldl_inv t (fun b a ha hb => hstep b a (List.mem_cons_of_mem _ ha) hb) _ (hest init)
    · exact ih h (fun b a ha hb => hstep b a (List.mem_cons_of_mem _ ha) hb) _

theorem pyFind_pyDictSet {κ α : Type} [DecidableEq κ] (d : List (κ × α)) (k k' : κ) (v : α) :
    pyFind (pyDictSet d k v) k' = if k' = k then some v else pyFind d k' := by
  induction d with
  | nil =>
    by_cases h : k' = k
    · subst h; simp [pyDictSet, pyFind]
    · simp [pyDictSet, pyFind, h, Ne.symm h]
  | cons p t ih =>
    by_cases hp : p.1 = k
    · subst hp
      by_cases h : k' = p.1
      · subst h; simp [pyDictSet, pyFind]
      · simp [pyDictSet, pyFind, h, Ne.symm h]
    · by_cases h : k' = k
      · subst h; simp [pyDictSet, pyFind, hp, ih]
      · simp [pyDictSet, pyFind, hp, h, ih]

theorem pyFind_pyDictAppend {κ α : Type} [DecidableEq κ] (d : List (κ × List α)) (k k' : κ) (v : α) :
    pyFind (pyDictAppend d k v) k' =
      if k' = k then some (((pyFind d k).getD []) ++ [v]) else pyFind d k' := by
  induction d with
  | nil =>
    by_cases h : k' = k
    · subst h; simp [pyDictAppend, pyFind]
    · simp [pyDictAppend, pyFind, h, Ne.symm h]
  | cons p t ih =>
    by_cases hp : p.1 = k
    · subst hp
      by_cases h : k' = p.1
      · subst h; simp [pyDictAppend, pyFind]
      · simp [pyDictAppend, pyFind, h, Ne.symm h]
    · by_cases h : k' = k
      · subst h; simp [pyDictAppend, pyFind, hp, ih]
      · simp [pyDictAppend, pyFind, hp, h, ih]

theorem pyFind_some_mem {κ α : Type} [DecidableEq κ] {d : List (κ × α)} {k : κ} {v : α}
    (h : pyFind d k = some v) : (k, v) ∈ d := by
  induction d with
  | nil => simp [pyFind] at h
  | cons p t ih =>
    by_cases hp : p.1 = k
    · simp [pyFind, hp] at h
      subst hp; subst h
      exact List.mem_cons_self _ _
    · simp [pyFind, hp] at h
      exact List.mem_cons_of_mem _ (ih h)

theorem mem_values_of_pyFind {κ α : Type} [DecidableEq κ] {d : List (κ × α)} {k : κ} {v : α}
    (h : pyFind d k = some v) : v ∈ d.map (·.2) :=
  List.mem_map.mpr ⟨(k, v), pyFind_some_mem h, rfl⟩

theorem updateFirstMat_length (mats : List Material) (km : Material) :
    (updateFirstMat mats km).length = mats.length := by
  induction mats with
  | nil => rfl
  | cons m t ih =>
    by_cases h : m.name = km.name <;> simp [updateFirstMat, h, ih]

/-! ### Claim theorems -/

/-- C6: for the 2x2 kit `{A1, A2, B1, B2}`, the legacy directive
`"bottom-right"` on a 96-well destination plate produces exactly the mapping
`{A1:[E7], A2:[E8], B1:[F7], B2:[F8]}` (anchor E7, row/column offsets 0/1 on
each axis). -/
theorem claim_C6_legacy_bottom_right :
    calculate_well_mappings (.str "bottom-right")
      [⟨65, 1⟩, ⟨65, 2⟩, ⟨66, 1⟩, ⟨66, 2⟩] "96" =
    [(⟨65, 1⟩, [⟨69, 7⟩]), (⟨65, 2⟩, [⟨69, 8⟩]), (⟨66, 1⟩, [⟨70, 7⟩]), (⟨66, 2⟩, [⟨70, 8⟩])] := by
  decide

/-- C9: for every legacy string directive and every kit-wells list, the
mapping returned by `calculate_well_mappings` is the same for every
destination-plate tag (in particular for `"24"`, `"48"` and `"96"`): the
legacy code path never reads the `destination_plate` argument. -/
theorem claim_C9_legacy_plate_independent (s : String) (kitWells : List Well)
    (plate1 plate2 : String) :
    calculate_well_mappings (.str s) kitWells plate1 =
      calculate_well_mappings (.str s) kitWells plate2 := rfl

/-- C1 counterexample: the legacy string path performs no bounds check, so
the claim "every destination well of every placement directive (legacy
string tag or structured strategy object) lies within the destination
plate's bounds" is false: the legacy directive `"bottom-right"` for the
one-well kit `{A1}` on a 24-well (4x6) plate maps A1 to E7, which lies
outside the 24-well plate's bounds (row E is the 5th row of a 4-row
plate). -/
theorem claim_C1_counterexample :
    calculate_well_mappings (.str "bottom-right") [⟨65, 1⟩] "24" = [(⟨65, 1⟩, [⟨69, 7⟩])]
    ∧ ¬ wellInBounds ⟨69, 7⟩ "24" := by
  constructor
  · decide
  · decide

/-- C2 counterexample: applying a kit whose well A1 carries `"NaCl"` amount
`"5"` (kit well A1 mapped to destination A1 via the `"top-left"` directive)
onto a procedure whose well A1 already holds `"NaCl"` amount `"3"` yields a
single `"NaCl"` entry whose amount is the string `"8.0"` (Python's `str` of
the float sum), not `"8"` as the claim states. -/
theorem claim_C2_counterexample :
    apply_kit_design_to_procedure
      [(⟨65, 1⟩, [⟨"NaCl", "", "", "", "5", "umol", ""⟩])]
      (.str "top-left") [⟨65, 1⟩]
      [⟨⟨65, 1⟩, [⟨"NaCl", "", "", "", "3", "umol", "manual"⟩,
                  ⟨"KCl", "", "", "", "7", "umol", "manual"⟩]⟩]
      "96" =
    [⟨⟨65, 1⟩, [⟨"NaCl", "", "", "", "8.0", "umol", "manual"⟩,
                ⟨"KCl", "", "", "", "7", "umol", "manual"⟩]⟩]
    ∧ ("8.0" : String) ≠ "8" := by
  constructor
  · decide
  · decide

/-- C2 amended: the merge yields a single `"NaCl"` entry in A1 whose amount
is `"8.0"` — the decimal rendering of the numeric sum 3 + 5 as a Python
float — while the other pre-existing material in A1 (`"KCl"`, amount
`"7"`) is unchanged, and the existing entry keeps all its other fields. -/
theorem claim_C2_merge_accumulation :
    apply_kit_design_to_procedure
      [(⟨65, 1⟩, [⟨"NaCl", "", "", "", "5", "umol", ""⟩])]
      (.str "top-left") [⟨65, 1⟩]
      [⟨⟨65, 1⟩, [⟨"NaCl", "", "", "", "3", "umol", "manual"⟩,
                  ⟨"KCl", "", "", "", "7", "umol", "manual"⟩]⟩]
      "96" =
    [⟨⟨65, 1⟩, [⟨"NaCl", "", "", "", pyFloatStr (3 + 5), "umol", "manual"⟩,
                ⟨"KCl", "", "", "", "7", "umol", "manual"⟩]⟩] := by
  decide

/-- C4 counterexample: under `exact_placement` a kit whose topmost-leftmost
content cell is B2 maps that cell to B2 itself, not to the fixed anchor A1
as the claim states: the offset is taken from the absolute plate origin
(row `'A'`, column 1), not from the kit's own topmost-leftmost cell. -/
theorem claim_C4_counterexample :
    calculate_flexible_well_mappings ⟨"exact_placement", [], []⟩ [⟨66, 2⟩] "96" =
      [(⟨66, 2⟩, [⟨66, 2⟩])]
    ∧ destsAt (calculate_flexible_well_mappings ⟨"exact_placement", [], []⟩ [⟨66, 2⟩] "96")
        ⟨66, 2⟩ ≠ [⟨65, 1⟩] := by
  constructor
  · decide
  · decide

/-- C5 counterexample: under `row_placement` with position id `"row-A"`, the
kit well B1 (of a kit whose topmost content row is B, hence row offset 0
from the kit's own origin) is placed at B1, not at A1 as the claim's
origin-relative reading states: the row offset is the absolute alphabetic
distance from row `'A'`, not the offset from the kit's topmost row. -/
theorem claim_C5_counterexample :
    calculate_flexible_well_mappings ⟨"row_placement", ["row-A"], []⟩ [⟨66, 1⟩] "96" =
      [(⟨66, 1⟩, [⟨66, 1⟩])]
    ∧ destsAt (calculate_flexible_well_mappings ⟨"row_placement", ["row-A"], []⟩ [⟨66, 1⟩] "96")
        ⟨66, 1⟩ ≠ [⟨65, 1⟩] := by
  constructor
  · decide
  · decide

/-- C10: the merge engine decides "already present" solely by string
equality of the `name` field — the length of a merged material list grows
exactly when no existing material has the incoming name, whatever the
alias/CAS/SMILES fields hold — and consequently two design materials that
share a name (here both the empty string, with different alias, CAS and
SMILES) applied to the same destination well collapse into one entry whose
amounts are numerically accumulated (`"2"` and `"3"` become `"5.0"`). -/
theorem claim_C10_name_only_merge :
    (∀ (mats : List Material) (km : Material),
      (mergeMaterial mats km).length =
        if mats.any (fun m => m.name = km.name) then mats.length else mats.length + 1)
    ∧ apply_kit_design_to_procedure
        [(⟨65, 1⟩, [⟨"", "X", "cas1", "sm1", "2", "umol", ""⟩,
                    ⟨"", "Y", "cas2", "sm2", "3", "umol", ""⟩])]
        (.str "top-left") [⟨65, 1⟩] [] "96" =
      [⟨⟨65, 1⟩, [⟨"", "X", "cas1", "sm1", "5.0", "umol", "kit_upload"⟩]⟩] := by
  constructor
  · intro mats km
    by_cases h : mats.any (fun m => m.name = km.name) <;>
      simp [mergeMaterial, h, updateFirstMat_length]
  · decide

/-- C7: the placement-strategy resolver rejects nothing: an empty kit-wells
list yields the empty mapping for every directive and plate; a legacy string
tag outside the recognized vocabulary yields the empty mapping; a structured
object whose strategy name is unrecognized yields the empty mapping. -/
theorem claim_C7_unrecognized_empty :
    (∀ (position : KitPosition) (plate : String),
        calculate_well_mappings position [] plate = [])
    ∧ (∀ (s : String) (kitWells : List Well) (plate : String),
        s ≠ "top-left" → s ≠ "top-right" → s ≠ "bottom-left" → s ≠ "bottom-right" →
        s ≠ "all-quadrants" → s ≠ "top-quadrants" → s ≠ "bottom-quadrants" →
        s ≠ "left-quadrants" → s ≠ "right-quadrants" →
        pyStartsWith s "row-" = false → pyStartsWith s "col-" = false →
        pyStartsWith s "rows-" = false → pyStartsWith s "cols-" = false →
        calculate_well_mappings (.str s) kitWells plate = [])
    ∧ (∀ (p : FlexPos) (kitWells : List Well) (plate : String),
        p.strategy ≠ "exact_placement" → p.strategy ≠ "row_placement" →
        p.strategy ≠ "col_placement" → p.strategy ≠ "quadrant_placement" →
        p.strategy ≠ "row_pair_placement" → p.strategy ≠ "half_placement" →
        p.strategy ≠ "block_placement" →
        calculate_well_mappings (.obj p) kitWells plate = []) := by
  refine ⟨?_, ?_, ?_⟩
  · intro position plate
    simp [calculate_well_mappings]
  · intro s kitWells plate h1 h2 h3 h4 h5 h6 h7 h8 h9 h10 h11 h12 h13
    by_cases hk : kitWells = []
    · simp [calculate_well_mappings, hk]
    · simp [calculate_well_mappings, hk, legacy_well_mappings,
        h1, h2, h3, h4, h5, h6, h7, h8, h9, h10, h11, h12, h13]
  · intro p kitWells plate h1 h2 h3 h4 h5 h6 h7
    by_cases hk : kitWells = []
    · simp [calculate_well_mappings, hk]
    · simp [calculate_well_mappings, hk, calculate_flexible_well_mappings,
        h1, h2, h3, h4, h5, h6, h7]

/-- Witness for C7: concrete instances — the unknown legacy tag
`"diagonal"`, the unknown strategy `"spiral_placement"`, and an empty
kit-wells list all yield the empty mapping. -/
theorem claim_C7_witness :
    calculate_well_mappings (.str "top-left") [] "96" = []
    ∧ calculate_well_mappings (.str "diagonal") [⟨65, 1⟩] "96" = []
    ∧ calculate_well_mappings (.obj ⟨"spiral_placement", ["row-A"], []⟩) [⟨65, 1⟩] "96" = [] :=
  ⟨claim_C7_unrecognized_empty.1 (.str "top-left") "96",
   claim_C7_unrecognized_empty.2.1 "diagonal" [⟨65, 1⟩] "96"
     (by decide) (by decide) (by decide) (by decide) (by decide) (by decide) (by decide)
     (by decide) (by decide) (by decide) (by decide) (by decide) (by decide),
   claim_C7_unrecognized_empty.2.2 ⟨"spiral_placement", ["row-A"], []⟩ [⟨65, 1⟩] "96"
     (by decide) (by decide) (by decide) (by decide) (by decide) (by decide) (by decide)⟩

/-! ### Min, max and range lemmas for the kit geometry -/

theorem foldl_min_le_init (l : List Int) (a : Int) : l.foldl min a ≤ a := by
  induction l generalizing a with
  | nil => simp
  | cons x t ih => exact le_trans (ih (min a x)) (min_le_left a x)

theorem foldl_min_le_mem (l : List Int) (a : Int) : ∀ x ∈ l, l.foldl min a ≤ x := by
  induction l generalizing a with
  | nil => intro x hx; cases hx
  | cons y t ih =>
    intro x hx
    rcases List.mem_cons.mp hx with h | h
    · subst h; exact le_trans (foldl_min_le_init t (min a x)) (min_le_right a x)
    · exact ih (min a y) x h

theorem foldl_min_mem (l : List Int) (a : Int) : l.foldl min a = a ∨ l.foldl min a ∈ l := by
  induction l generalizing a with
  | nil => left; rfl
  | cons y t ih =>
    simp only [List.foldl_cons]
    rcases ih (min a y) with h | h
    · rcases min_cases a y with ⟨h2, _⟩ | ⟨h2, _⟩
      · left; rw [h, h2]
      · right; rw [h, h2]; exact List.mem_cons_self _ _
    · right; exact List.mem_cons_of_mem _ h

theorem init_le_foldl_max (l : List Int) (a : Int) : a ≤ l.foldl max a := by
  induction l generalizing a with
  | nil => simp
  | cons x t ih => exact le_trans (le_max_left a x) (ih (max a x))

theorem mem_le_foldl_max (l : List Int) (a : Int) : ∀ x ∈ l, x ≤ l.foldl max a := by
  induction l generalizing a with
  | nil => intro x hx; cases hx
  | cons y t ih =>
    intro x hx
    rcases List.mem_cons.mp hx with h | h
    · subst h; exact le_trans (le_max_right a x) (init_le_foldl_max t (max a x))
    · exact ih (max a y) x h

theorem foldl_max_mem (l : List Int) (a : Int) : l.foldl max a = a ∨ l.foldl max a ∈ l := by
  induction l generalizing a with
  | nil => left; rfl
  | cons y t ih =>
    simp only [List.foldl_cons]
    rcases ih (max a y) with h | h
    · rcases max_cases a y with ⟨h2, _⟩ | ⟨h2, _⟩
      · left; rw [h, h2]
      · right; rw [h, h2]; exact List.mem_cons_self _ _
    · right; exact List.mem_cons_of_mem _ h

theorem pyMinI_le {l : List Int} (x : Int) (hx : x ∈ l) : pyMinI l ≤ x := by
  cases l with
  | nil => cases hx
  | cons h t =>
    rcases List.mem_cons.mp hx with h2 | h2
    · subst h2; exact foldl_min_le_init t x
    · exact foldl_min_le_mem t h x h2

theorem le_pyMaxI {l : List Int} (x : Int) (hx : x ∈ l) : x ≤ pyMaxI l := by
  cases l with
  | nil => cases hx
  | cons h t =>
    rcases List.mem_cons.mp hx with h2 | h2
    · subst h2; exact init_le_foldl_max t x
    · exact mem_le_foldl_max t h x h2

theorem pyMinI_mem {l : List Int} (hl : l ≠ []) : pyMinI l ∈ l := by
  cases l with
  | nil => exact absurd rfl hl
  | cons h t =>
    rcases foldl_min_mem t h with heq | hmem
    · show t.foldl min h ∈ h :: t
      rw [heq]; exact List.mem_cons_self _ _
    · exact List.mem_cons_of_mem _ hmem

theorem pyMaxI_mem {l : List Int} (hl : l ≠ []) : pyMaxI l ∈ l := by
  cases l with
  | nil => exact absurd rfl hl
  | cons h t =>
    rcases foldl_max_mem t h with heq | hmem
    · show t.foldl max h ∈ h :: t
      rw [heq]; exact List.mem_cons_self _ _
    · exact List.mem_cons_of_mem _ hmem

theorem pyMinI_dedup (l : List Int) : pyMinI l.dedup = pyMinI l := by
  by_cases hl : l = []
  · subst hl; rfl
  · have hd : l.dedup ≠ [] := fun h => hl ((List.dedup_eq_nil _).mp h)
    apply le_antisymm
    · exact pyMinI_le _ (List.mem_dedup.mpr (pyMinI_mem hl))
    · exact pyMinI_le _ (List.mem_dedup.mp (pyMinI_mem hd))

theorem pyMaxI_dedup (l : List Int) : pyMaxI l.dedup = pyMaxI l := by
  by_cases hl : l = []
  · subst hl; rfl
  · have hd : l.dedup ≠ [] := fun h => hl ((List.dedup_eq_nil _).mp h)
    apply le_antisymm
    · exact le_pyMaxI _ (List.mem_dedup.mp (pyMaxI_mem hd))
    · exact le_pyMaxI _ (List.mem_dedup.mpr (pyMaxI_mem hl))

theorem mem_pyRange {a b x : Int} : x ∈ pyRange a b ↔ a ≤ x ∧ x < b := by
  unfold pyRange
  rw [List.mem_map]
  constructor
  · rintro ⟨i, hi, rfl⟩
    rw [List.mem_range] at hi
    omega
  · rintro ⟨h1, h2⟩
    refine ⟨(x - a).toNat, ?_, ?_⟩
    · rw [List.mem_range]; omega
    · omega

theorem length_pyRange (a b : Int) : (pyRange a b).length = (b - a).toNat := by
  rw [pyRange, List.length_map, List.length_range]

theorem sum_map_const_nat {α : Type} (l : List α) (n : Nat) :
    (l.map (fun _ => n)).sum = l.length * n := by
  induction l with
  | nil => simp
  | cons x t ih => simp [ih]; ring

theorem analyze_kit_size_eq (cw : List Well) (hne : cw ≠ []) :
    analyze_kit_size cw =
      ⟨pyMaxI (cw.map (·.rowCode)) - pyMinI (cw.map (·.rowCode)) + 1,
       pyMaxI (cw.map (·.col)) - pyMinI (cw.map (·.col)) + 1,
       (pyMaxI (cw.map (·.rowCode)) - pyMinI (cw.map (·.rowCode)) + 1) *
         (pyMaxI (cw.map (·.col)) - pyMinI (cw.map (·.col)) + 1),
       (cw.length : Int),
       (pyRange (pyMinI (cw.map (·.rowCode))) (pyMaxI (cw.map (·.rowCode)) + 1)).flatMap
         (fun r => (pyRange (pyMinI (cw.map (·.col))) (pyMaxI (cw.map (·.col)) + 1)).map
           (fun c => Well.mk r c))⟩ := by
  have hmapr : cw.map (·.rowCode) ≠ [] := by
    intro h
    exact hne (List.map_eq_nil_iff.mp h)
  have hmapc : cw.map (·.col) ≠ [] := by
    intro h
    exact hne (List.map_eq_nil_iff.mp h)
  have h1 : (cw.map (·.rowCode)).dedup ≠ [] := fun h => hmapr ((List.dedup_eq_nil _).mp h)
  have h2 : (cw.map (·.col)).dedup ≠ [] := fun h => hmapc ((List.dedup_eq_nil _).mp h)
  have hcond : ¬((cw.map (·.rowCode)).dedup = [] ∨ (cw.map (·.col)).dedup = []) := by
    rintro (h | h)
    · exact h1 h
    · exact h2 h
  unfold analyze_kit_size
  rw [if_neg hcond]
  simp only [pyMinI_dedup, pyMaxI_dedup]

/-- C3: for every non-empty (duplicate-free) set of content wells, the kit
geometry extractor's `wells` list is, as a set, exactly the Cartesian
product of the inclusive row range and inclusive column range spanned by
the content wells (bounding-box holes included); `content_wells` is at most
`total_wells`; and every content well is an element of `wells`. -/
theorem claim_C3_kit_geometry (cw : List Well) (hne : cw ≠ []) (hnd : cw.Nodup) :
    (∀ w : Well, w ∈ (analyze_kit_size cw).wells ↔
      (pyMinI (cw.map (·.rowCode)) ≤ w.rowCode ∧ w.rowCode ≤ pyMaxI (cw.map (·.rowCode)) ∧
       pyMinI (cw.map (·.col)) ≤ w.col ∧ w.col ≤ pyMaxI (cw.map (·.col))))
    ∧ (analyze_kit_size cw).content_wells ≤ (analyze_kit_size cw).total_wells
    ∧ (∀ w ∈ cw, w ∈ (analyze_kit_size cw).wells) := by
  have hks := analyze_kit_size_eq cw hne
  have hmem : ∀ w : Well, w ∈ (analyze_kit_size cw).wells ↔
      (pyMinI (cw.map (·.rowCode)) ≤ w.rowCode ∧ w.rowCode ≤ pyMaxI (cw.map (·.rowCode)) ∧
       pyMinI (cw.map (·.col)) ≤ w.col ∧ w.col ≤ pyMaxI (cw.map (·.col))) := by
    intro w
    rw [hks]
    show w ∈ (pyRange _ _).flatMap _ ↔ _
    rw [List.mem_flatMap]
    constructor
    · rintro ⟨r, hr, hw⟩
      rw [List.mem_map] at hw
      obtain ⟨c, hc, rfl⟩ := hw
      rw [mem_pyRange] at hr hc
      dsimp only
      refine ⟨hr.1, by omega, hc.1, by omega⟩
    · intro h
      refine ⟨w.rowCode, ?_, ?_⟩
      · rw [mem_pyRange]; omega
      · rw [List.mem_map]
        refine ⟨w.col, by rw [mem_pyRange]; omega, ?_⟩
        cases w; rfl
  have hcw_mem : ∀ w ∈ cw, w ∈ (analyze_kit_size cw).wells := by
    intro w hw
    rw [hmem w]
    refine ⟨pyMinI_le _ (List.mem_map_of_mem _ hw), le_pyMaxI _ (List.mem_map_of_mem _ hw),
      pyMinI_le _ (List.mem_map_of_mem _ hw), le_pyMaxI _ (List.mem_map_of_mem _ hw)⟩
  refine ⟨hmem, ?_, hcw_mem⟩
  -- content_wells ≤ total_wells
  have hRle : pyMinI (cw.map (·.rowCode)) ≤ pyMaxI (cw.map (·.rowCode)) := by
    have hmapr : cw.map (·.rowCode) ≠ [] := by
      intro h; exact hne (List.map_eq_nil_iff.mp h)
    exact le_pyMaxI _ (pyMinI_mem hmapr)
  have hCle : pyMinI (cw.map (·.col)) ≤ pyMaxI (cw.map (·.col)) := by
    have hmapc : cw.map (·.col) ≠ [] := by
      intro h; exact hne (List.map_eq_nil_iff.mp h)
    exact le_pyMaxI _ (pyMinI_mem hmapc)
  have hsub : cw ⊆ (analyze_kit_size cw).wells := fun w hw => hcw_mem w hw
  have hlen : cw.length ≤ (analyze_kit_size cw).wells.length :=
    (hnd.subperm hsub).length_le
  have hwlen : (analyze_kit_size cw).wells.length =
      (pyMaxI (cw.map (·.rowCode)) + 1 - pyMinI (cw.map (·.rowCode))).toNat *
      (pyMaxI (cw.map (·.col)) + 1 - pyMinI (cw.map (·.col))).toNat := by
    rw [hks]
    show ((pyRange _ _).flatMap _).length = _
    rw [List.length_flatMap]
    simp only [Function.comp_def, List.length_map, length_pyRange]
    rw [sum_map_const_nat, length_pyRange]
  rw [hks]
  show (cw.length : Int) ≤ _
  have h2 : ((cw.length : Nat) : Int) ≤ (((pyMaxI (cw.map (·.rowCode)) + 1 - pyMinI (cw.map (·.rowCode))).toNat *
      (pyMaxI (cw.map (·.col)) + 1 - pyMinI (cw.map (·.col))).toNat : Nat) : Int) := by
    exact_mod_cast hwlen ▸ hlen
  calc (cw.length : Int) ≤ _ := h2
    _ = (pyMaxI (cw.map (·.rowCode)) - pyMinI (cw.map (·.rowCode)) + 1) *
        (pyMaxI (cw.map (·.col)) - pyMinI (cw.map (·.col)) + 1) := by
      rw [Nat.cast_mul, Int.toNat_of_nonneg (by omega), Int.toNat_of_nonneg (by omega)]
      ring

/-- Witness for C3: the two-content-well kit `{A1, B3}` — its descriptor
satisfies `content_wells ≤ total_wells`, and the bounding-box well B1
(which carries no material) is in `wells`. -/
theorem claim_C3_witness :
    (analyze_kit_size [⟨65, 1⟩, ⟨66, 3⟩]).content_wells ≤
      (analyze_kit_size [⟨65, 1⟩, ⟨66, 3⟩]).total_wells
    ∧ (⟨66, 1⟩ : Well) ∈ (analyze_kit_size [⟨65, 1⟩, ⟨66, 3⟩]).wells :=
  ⟨(claim_C3_kit_geometry [⟨65, 1⟩, ⟨66, 3⟩] (by decide) (by decide)).2.1,
   ((claim_C3_kit_geometry [⟨65, 1⟩, ⟨66, 3⟩] (by decide) (by decide)).1 ⟨66, 1⟩).mpr
     (by decide)⟩

theorem self_mem_pyDictSet {κ α : Type} [DecidableEq κ] (d : List (κ × α)) (k : κ) (v : α) :
    (k, v) ∈ pyDictSet d k v := by
  induction d with
  | nil => exact List.mem_cons_self _ _
  | cons p t ih =>
    unfold pyDictSet
    by_cases h : p.1 = k
    · rw [if_pos h]; exact List.mem_cons_self _ _
    · rw [if_neg h]; exact List.mem_cons_of_mem _ ih

theorem mem_pyDictSet_elim {κ α : Type} [DecidableEq κ] {d : List (κ × α)} {k : κ} {v : α}
    {kv : κ × α} (h : kv ∈ pyDictSet d k v) : kv = (k, v) ∨ kv ∈ d := by
  induction d with
  | nil =>
    left
    simpa [pyDictSet] using h
  | cons p t ih =>
    unfold pyDictSet at h
    by_cases hp : p.1 = k
    · rw [if_pos hp] at h
      rcases List.mem_cons.mp h with h | h
      · left; exact h
      · right; exact List.mem_cons_of_mem _ h
    · rw [if_neg hp] at h
      rcases List.mem_cons.mp h with h | h
      · right; rw [h]; exact List.mem_cons_self _ _
      · rcases ih h with h | h
        · left; exact h
        · right; exact List.mem_cons_of_mem _ h

theorem mem_pyDictSet_of_ne {κ α : Type} [DecidableEq κ] {d : List (κ × α)} {kv : κ × α}
    (h : kv ∈ d) {k : κ} (hne : kv.1 ≠ k) (v : α) : kv ∈ pyDictSet d k v := by
  induction d with
  | nil => cases h
  | cons p t ih =>
    unfold pyDictSet
    by_cases hp : p.1 = k
    · rw [if_pos hp]
      rcases List.mem_cons.mp h with h | h
      · exact absurd (h ▸ hp : kv.1 = k) hne
      · exact List.mem_cons_of_mem _ h
    · rw [if_neg hp]
      rcases List.mem_cons.mp h with h | h
      · rw [h]; exact List.mem_cons_self _ _
      · exact List.mem_cons_of_mem _ (ih h)

theorem destsAt_mono_pyDictAppend {m : Mappings} {w : Well} {x : Well} (h : x ∈ destsAt m w)
    (k : Well) (v : Well) : x ∈ destsAt (pyDictAppend m k v) w := by
  unfold destsAt at h ⊢
  rw [pyFind_pyDictAppend]
  by_cases e : w = k
  · subst e
    rw [if_pos rfl]
    simp only [Option.getD_some]
    exact List.mem_append_left _ h
  · rw [if_neg e]
    exact h

theorem mem_destsAt_pyDictAppend_self (m : Mappings) (k : Well) (v : Well) :
    v ∈ destsAt (pyDictAppend m k v) k := by
  unfold destsAt
  rw [pyFind_pyDictAppend, if_pos rfl]
  simp

/-- C4 amended: under `exact_placement` every mapped kit well maps to itself
(that is, destination = plate origin A1 plus the kit well's absolute offset
from A1, regardless of where the kit's own topmost-leftmost content cell
sits), and every kit well within the plate's upper bounds is mapped. -/
theorem claim_C4_exact_placement (ps : List String) (bs : List Block)
    (kitWells : List Well) (plate : String) :
    (∀ kv ∈ calculate_flexible_well_mappings ⟨"exact_placement", ps, bs⟩ kitWells plate,
       kv.2 = [kv.1])
    ∧ (∀ w ∈ kitWells,
        w.rowCode ≤ 65 + (plateConfig plate).rows - 1 → w.col ≤ (plateConfig plate).cols →
        (w, [w]) ∈ calculate_flexible_well_mappings ⟨"exact_placement", ps, bs⟩ kitWells plate) := by
  by_cases hk : kitWells = []
  · subst hk
    constructor
    · intro kv hkv
      simp [calculate_flexible_well_mappings] at hkv
    · intro w hw
      cases hw
  · have hred : calculate_flexible_well_mappings ⟨"exact_placement", ps, bs⟩ kitWells plate =
        kitWells.foldl (fun m w =>
          let kro := w.rowCode - 65
          let kco := w.col - 1
          let dr := 65 + kro
          let dc := 1 + kco
          if dr ≤ 65 + (plateConfig plate).rows - 1 ∧ dc ≤ (plateConfig plate).cols then
            pyDictSet m w [⟨dr, dc⟩] else m) [] := by
      simp [calculate_flexible_well_mappings, hk]
    have hdest : ∀ w : Well, (⟨65 + (w.rowCode - 65), 1 + (w.col - 1)⟩ : Well) = w := by
      intro w
      cases w
      simp only [Well.mk.injEq]
      omega
    rw [hred]
    constructor
    · apply foldl_inv (P := fun (m : Mappings) => ∀ kv ∈ m, kv.2 = [kv.1])
      · intro m a _ hm kv hkv
        simp only at hkv
        split at hkv
        · rcases mem_pyDictSet_elim hkv with h | h
          · rw [h]
            simp [hdest a]
          · exact hm kv h
        · exact hm kv hkv
      · intro kv hkv
        cases hkv
    · intro w hw hrow hcol
      apply foldl_estab (P := fun m => (w, [w]) ∈ m) kitWells w hw
      · intro b
        simp only
        rw [if_pos ⟨by omega, by omega⟩, hdest w]
        exact self_mem_pyDictSet b w [w]
      · intro b a _ hb
        simp only
        split
        · by_cases haw : a = w
          · subst haw
            rw [hdest a]
            exact self_mem_pyDictSet b a [a]
          · exact mem_pyDictSet_of_ne hb (fun h => haw h.symm) _
        · exact hb

/-- Witness for C4 amended: the one-well kit `{B2}` under `exact_placement`
on a 96-well plate is mapped to itself. -/
theorem claim_C4_witness :
    ((⟨66, 2⟩ : Well), [(⟨66, 2⟩ : Well)]) ∈
      calculate_flexible_well_mappings ⟨"exact_placement", [], []⟩ [⟨66, 2⟩] "96" :=
  (claim_C4_exact_placement [] [] [⟨66, 2⟩] "96").2 ⟨66, 2⟩ (by decide) (by decide) (by decide)

/-- C5 amended: under `row_placement`, a position id of the form
`"row-{Letter}"` places every kit well at destination row = the letter's
code point plus the kit well's absolute row offset from row `'A'` (not from
the kit's own topmost content row), with the column copied verbatim,
whenever that destination passes the plate-bound guard. -/
theorem claim_C5_row_placement (p : FlexPos) (kitWells : List Well) (plate : String)
    (hstrat : p.strategy = "row_placement")
    (pid : String) (hpid : pid ∈ p.positions)
    (hstart : pyStartsWith pid "row-" = true)
    (c : Char) (hc : singleCharSeg ((pySplitDash pid).getD 1 "") = some c)
    (w : Well) (hw : w ∈ kitWells)
    (hrow : (c.toNat : Int) + (w.rowCode - 65) ≤ 65 + (plateConfig plate).rows - 1)
    (hcol : w.col ≤ (plateConfig plate).cols) :
    (⟨(c.toNat : Int) + (w.rowCode - 65), w.col⟩ : Well) ∈
      destsAt (calculate_flexible_well_mappings p kitWells plate) w := by
  have hk : kitWells ≠ [] := by
    intro h
    rw [h] at hw
    cases hw
  obtain ⟨strat, positions, blocks⟩ := p
  simp only at hstrat
  subst hstrat
  have hred : calculate_flexible_well_mappings ⟨"row_placement", positions, blocks⟩ kitWells plate =
      positions.foldl (fun m pid =>
        if pyStartsWith pid "row-" then
          match singleCharSeg ((pySplitDash pid).getD 1 "") with
          | some c =>
            kitWells.foldl (fun m w =>
              let kro := w.rowCode - 65
              let dr := (c.toNat : Int) + kro
              let dc := w.col
              if dr ≤ 65 + (plateConfig plate).rows - 1 ∧ dc ≤ (plateConfig plate).cols then
                pyDictAppend m w ⟨dr, dc⟩ else m) m
          | none => m
        else m) [] := by
    simp [calculate_flexible_well_mappings, hk]
  rw [hred]
  have hpres : ∀ (b : Mappings) (a : String), a ∈ positions →
      (fun m => (⟨(c.toNat : Int) + (w.rowCode - 65), w.col⟩ : Well) ∈ destsAt m w) b →
      (fun m => (⟨(c.toNat : Int) + (w.rowCode - 65), w.col⟩ : Well) ∈ destsAt m w)
        ((fun m pid =>
          if pyStartsWith pid "row-" then
            match singleCharSeg ((pySplitDash pid).getD 1 "") with
            | some c2 =>
              kitWells.foldl (fun m w2 =>
                let kro := w2.rowCode - 65
                let dr := (c2.toNat : Int) + kro
                let dc := w2.col
                if dr ≤ 65 + (plateConfig plate).rows - 1 ∧ dc ≤ (plateConfig plate).cols then
                  pyDictAppend m w2 ⟨dr, dc⟩ else m) m
            | none => m
          else m) b a) := by
    intro b a _ hb
    dsimp only
    split
    · split
      · apply foldl_inv (P := fun (m : Mappings) =>
          (⟨(c.toNat : Int) + (w.rowCode - 65), w.col⟩ : Well) ∈ destsAt m w)
        · intro m2 a2 _ hm2
          dsimp only
          split
          · exact destsAt_mono_pyDictAppend hm2 _ _
          · exact hm2
        · exact hb
      · exact hb
    · exact hb
  apply foldl_estab (P := fun (m : Mappings) =>
      (⟨(c.toNat : Int) + (w.rowCode - 65), w.col⟩ : Well) ∈ destsAt m w)
    positions pid hpid
  · intro b
    rw [if_pos hstart, hc]
    apply foldl_estab (P := fun (m : Mappings) =>
        (⟨(c.toNat : Int) + (w.rowCode - 65), w.col⟩ : Well) ∈ destsAt m w)
      kitWells w hw
    · intro b2
      rw [if_pos ⟨hrow, hcol⟩]
      exact mem_destsAt_pyDictAppend_self b2 w _
    · intro b2 a2 _ hb2
      dsimp only
      split
      · exact destsAt_mono_pyDictAppend hb2 _ _
      · exact hb2
  · exact hpres

/-- Witness for C5 amended: position id `"row-C"` places kit well B5 at D5
(row C plus absolute offset 1 from row A, column verbatim). -/
theorem claim_C5_witness :
    (⟨68, 5⟩ : Well) ∈ destsAt
      (calculate_flexible_well_mappings ⟨"row_placement", ["row-C"], []⟩ [⟨66, 5⟩] "96")
      ⟨66, 5⟩ := by
  have h := claim_C5_row_placement ⟨"row_placement", ["row-C"], []⟩ [⟨66, 5⟩] "96" rfl
    "row-C" (by decide) (by decide) 'C' (by decide) ⟨66, 5⟩ (by decide) (by decide) (by decide)
  exact h

theorem allDest_pyDictAppend {P : Well → Prop} {m : Mappings}
    (hm : ∀ kv ∈ m, ∀ x ∈ kv.2, P x) {k v : Well} (hv : P v) :
    ∀ kv ∈ pyDictAppend m k v, ∀ x ∈ kv.2, P x := by
  induction m with
  | nil =>
    intro kv hkv x hx
    rcases List.mem_singleton.mp hkv with rfl
    rcases List.mem_singleton.mp hx with rfl
    exact hv
  | cons p t ih =>
    intro kv hkv x hx
    unfold pyDictAppend at hkv
    by_cases hp : p.1 = k
    · rw [if_pos hp] at hkv
      rcases List.mem_cons.mp hkv with h | h
      · subst h
        rcases List.mem_append.mp hx with h2 | h2
        · exact hm p (List.mem_cons_self _ _) x h2
        · rcases List.mem_singleton.mp h2 with rfl
          exact hv
      · exact hm kv (List.mem_cons_of_mem _ h) x hx
    · rw [if_neg hp] at hkv
      rcases List.mem_cons.mp hkv with h | h
      · subst h
        exact hm kv (List.mem_cons_self _ _) x hx
      · exact ih (fun kv2 hkv2 => hm kv2 (List.mem_cons_of_mem _ hkv2)) kv h x hx

theorem allDest_pyDictSet {P : Well → Prop} {m : Mappings}
    (hm : ∀ kv ∈ m, ∀ x ∈ kv.2, P x) {k : Well} {vs : List Well}
    (hvs : ∀ x ∈ vs, P x) :
    ∀ kv ∈ pyDictSet m k vs, ∀ x ∈ kv.2, P x := by
  intro kv hkv x hx
  rcases mem_pyDictSet_elim hkv with h | h
  · subst h
    exact hvs x hx
  · exact hm kv h x hx

theorem wellInBounds_intro {d : Well} {plate : String}
    (h1 : 65 ≤ d.rowCode) (h2 : d.rowCode ≤ 65 + (plateConfig plate).rows - 1)
    (h3 : 1 ≤ d.col) (h4 : d.col ≤ (plateConfig plate).cols) : wellInBounds d plate :=
  ⟨h1, h2, h3, h4⟩

/-- C1 amended: for structured strategy directives with well-formed inputs
(kit wells with letter rows and positive columns, row/column position-id
suffixes naming a letter / a positive column, blocks with letter start rows
and positive start columns), every destination well in the resolver's
mapping lies within the destination plate's bounds; and concretely, a
5-row kit under `exact_placement` on a 24-well (4x6) plate loses exactly its
out-of-bounds well E1 while the in-bound wells A1-D1 stay mapped.  (The
legacy string path checks no bounds — see the counterexample.) -/
theorem claim_C1_flexible_bounds :
    (∀ (p : FlexPos) (kitWells : List Well) (plate : String),
      (∀ w ∈ kitWells, 65 ≤ w.rowCode ∧ 1 ≤ w.col) →
      (∀ pid ∈ p.positions, ∀ c, singleCharSeg ((pySplitDash pid).getD 1 "") = some c →
        65 ≤ (c.toNat : Int)) →
      (∀ pid ∈ p.positions, ∀ n, pyParseInt ((pySplitDash pid).getD 1 "") = some n →
        1 ≤ n) →
      (∀ b ∈ p.blocks, 65 ≤ b.startRow ∧ 1 ≤ b.startCol) →
      ∀ kv ∈ calculate_flexible_well_mappings p kitWells plate, ∀ d ∈ kv.2,
        wellInBounds d plate)
    ∧ calculate_flexible_well_mappings ⟨"exact_placement", [], []⟩
        [⟨65, 1⟩, ⟨66, 1⟩, ⟨67, 1⟩, ⟨68, 1⟩, ⟨69, 1⟩] "24" =
      [(⟨65, 1⟩, [⟨65, 1⟩]), (⟨66, 1⟩, [⟨66, 1⟩]), (⟨67, 1⟩, [⟨67, 1⟩]), (⟨68, 1⟩, [⟨68, 1⟩])] := by
  constructor
  · intro p kitWells plate hwells hrowids hcolids hblocks
    by_cases hk : kitWells = []
    · intro kv hkv
      simp [calculate_flexible_well_mappings, hk] at hkv
    · by_cases hs1 : p.strategy = "exact_placement"
      · have hred : calculate_flexible_well_mappings p kitWells plate =
            kitWells.foldl (fun m w =>
              let kro := w.rowCode - 65
              let kco := w.col - 1
              let dr := 65 + kro
              let dc := 1 + kco
              if dr ≤ 65 + (plateConfig plate).rows - 1 ∧ dc ≤ (plateConfig plate).cols then
                pyDictSet m w [⟨dr, dc⟩] else m) [] := by
          simp [calculate_flexible_well_mappings, hk, hs1]
        rw [hred]
        apply foldl_inv (P := fun (m : Mappings) => ∀ kv ∈ m, ∀ d ∈ kv.2, wellInBounds d plate)
        · intro b w hw hb
          dsimp only
          split
          · next hg =>
            apply allDest_pyDictSet hb
            intro x hx
            rcases List.mem_singleton.mp hx with rfl
            have hwb := hwells w hw
            refine wellInBounds_intro ?_ ?_ ?_ ?_ <;> dsimp only <;> omega
          · exact hb
        · intro kv h
          cases h
      · by_cases hs2 : p.strategy = "row_placement"
        · have hred : calculate_flexible_well_mappings p kitWells plate =
              p.positions.foldl (fun m pid =>
                if pyStartsWith pid "row-" then
                  match singleCharSeg ((pySplitDash pid).getD 1 "") with
                  | some c =>
                    kitWells.foldl (fun m w =>
                      let kro := w.rowCode - 65
                      let dr := (c.toNat : Int) + kro
                      let dc := w.col
                      if dr ≤ 65 + (plateConfig plate).rows - 1 ∧ dc ≤ (plateConfig plate).cols then
                        pyDictAppend m w ⟨dr, dc⟩ else m) m
                  | none => m
                else m) [] := by
            simp [calculate_flexible_well_mappings, hk, hs1, hs2]
          rw [hred]
          apply foldl_inv (P := fun (m : Mappings) => ∀ kv ∈ m, ∀ d ∈ kv.2, wellInBounds d plate)
          · intro b a ha hb
            dsimp only
            split
            · split
              · next c2 heq =>
                have hc65 := hrowids a ha c2 heq
                apply foldl_inv (P := fun (m : Mappings) => ∀ kv ∈ m, ∀ d ∈ kv.2, wellInBounds d plate)
                · intro m2 w2 hw2 hm2
                  dsimp only
                  split
                  · next hg =>
                    apply allDest_pyDictAppend hm2
                    have hwb := hwells w2 hw2
                    refine wellInBounds_intro ?_ ?_ ?_ ?_ <;> dsimp only <;> omega
                  · exact hm2
                · exact hb
              · exact hb
            · exact hb
          · intro kv h
            cases h
        · by_cases hs3 : p.strategy = "col_placement"
          · have hred : calculate_flexible_well_mappings p kitWells plate =
                p.positions.foldl (fun m pid =>
                  if pyStartsWith pid "col-" then
                    match pyParseInt ((pySplitDash pid).getD 1 "") with
                    | some tc =>
                      kitWells.foldl (fun m w =>
                        let kco := w.col - 1
                        let dr := w.rowCode
                        let dc := tc + kco
                        if dr ≤ 65 + (plateConfig plate).rows - 1 ∧ dc ≤ (plateConfig plate).cols then
                          pyDictAppend m w ⟨dr, dc⟩ else m) m
                    | none => m
                  else m) [] := by
              simp [calculate_flexible_well_mappings, hk, hs1, hs2, hs3]
            rw [hred]
            apply foldl_inv (P := fun (m : Mappings) => ∀ kv ∈ m, ∀ d ∈ kv.2, wellInBounds d plate)
            · intro b a ha hb
              dsimp only
              split
              · split
                · next tc heq =>
                  have htc := hcolids a ha tc heq
                  apply foldl_inv (P := fun (m : Mappings) => ∀ kv ∈ m, ∀ d ∈ kv.2, wellInBounds d plate)
                  · intro m2 w2 hw2 hm2
                    dsimp only
                    split
                    · next hg =>
                      apply allDest_pyDictAppend hm2
                      have hwb := hwells w2 hw2
                      refine wellInBounds_intro ?_ ?_ ?_ ?_ <;> dsimp only <;> omega
                    · exact hm2
                  · exact hb
                · exact hb
              · exact hb
            · intro kv h
              cases h
          · by_cases hs4 : p.strategy = "quadrant_placement"
            · have hred : calculate_flexible_well_mappings p kitWells plate =
                  p.positions.foldl (fun m pid =>
                    match pyFind (if plate = "48" then
                        [("top-left", ((0 : Int), (0 : Int))), ("top-right", (2, 0))]
                      else
                        [("top-left", (0, 0)), ("top-right", (0, 6)), ("bottom-left", (4, 0)),
                          ("bottom-right", (4, 6))]) pid with
                    | some qo =>
                      kitWells.foldl (fun m w =>
                        let kro := w.rowCode - 65
                        let kco := w.col - 1
                        let dr := 65 + qo.1 + kro
                        let dc := 1 + qo.2 + kco
                        if dr ≤ 65 + (plateConfig plate).rows - 1 ∧ dc ≤ (plateConfig plate).cols then
                          pyDictAppend m w ⟨dr, dc⟩ else m) m
                    | none => m) [] := by
                simp [calculate_flexible_well_mappings, hk, hs1, hs2, hs3, hs4]
              rw [hred]
              apply foldl_inv (P := fun (m : Mappings) => ∀ kv ∈ m, ∀ d ∈ kv.2, wellInBounds d plate)
              · intro b a ha hb
                dsimp only
                split
                · next qo heq =>
                  have hqo : 0 ≤ qo.1 ∧ 0 ≤ qo.2 := by
                    have hv := mem_values_of_pyFind heq
                    by_cases h48 : plate = "48"
                    · rw [if_pos h48] at hv
                      simp at hv
                      rcases hv with rfl | rfl <;> exact ⟨by decide, by decide⟩
                    · rw [if_neg h48] at hv
                      simp at hv
                      rcases hv with rfl | rfl | rfl | rfl <;> exact ⟨by decide, by decide⟩
                  apply foldl_inv (P := fun (m : Mappings) => ∀ kv ∈ m, ∀ d ∈ kv.2, wellInBounds d plate)
                  · intro m2 w2 hw2 hm2
                    dsimp only
                    split
                    · next hg =>
                      apply allDest_pyDictAppend hm2
                      have hwb := hwells w2 hw2
                      refine wellInBounds_intro ?_ ?_ ?_ ?_ <;> dsimp only <;> omega
                    · exact hm2
                  · exact hb
                · exact hb
              · intro kv h
                cases h
            · by_cases hs5 : p.strategy = "row_pair_placement"
              · have hred : calculate_flexible_well_mappings p kitWells plate =
                    p.positions.foldl (fun m pid =>
                      match pyFind [("AB", (0 : Int)), ("CD", 2), ("EF", 4), ("GH", 6)] pid with
                      | some ro =>
                        kitWells.foldl (fun m w =>
                          let kro := w.rowCode - 65
                          let dr := 65 + ro + kro
                          let dc := w.col
                          if dr ≤ 65 + (plateConfig plate).rows - 1 ∧ dc ≤ (plateConfig plate).cols then
                            pyDictAppend m w ⟨dr, dc⟩ else m) m
                      | none => m) [] := by
                  simp [calculate_flexible_well_mappings, hk, hs1, hs2, hs3, hs4, hs5]
                rw [hred]
                apply foldl_inv (P := fun (m : Mappings) => ∀ kv ∈ m, ∀ d ∈ kv.2, wellInBounds d plate)
                · intro b a ha hb
                  dsimp only
                  split
                  · next ro heq =>
                    have hro : 0 ≤ ro := by
                      have hv := mem_values_of_pyFind heq
                      simp at hv
                      rcases hv with rfl | rfl | rfl | rfl <;> decide
                    apply foldl_inv (P := fun (m : Mappings) => ∀ kv ∈ m, ∀ d ∈ kv.2, wellInBounds d plate)
                    · intro m2 w2 hw2 hm2
                      dsimp only
                      split
                      · next hg =>
                        apply allDest_pyDictAppend hm2
                        have hwb := hwells w2 hw2
                        refine wellInBounds_intro ?_ ?_ ?_ ?_ <;> dsimp only <;> omega
                      · exact hm2
                    · exact hb
                  · exact hb
                · intro kv h
                  cases h
              · by_cases hs6 : p.strategy = "half_placement"
                · have hred : calculate_flexible_well_mappings p kitWells plate =
                      p.positions.foldl (fun m pid =>
                        match pyFind [("upper", (0 : Int)), ("lower", 4)] pid with
                        | some ro =>
                          kitWells.foldl (fun m w =>
                            let kro := w.rowCode - 65
                            let dr := 65 + ro + kro
                            let dc := w.col
                            if dr ≤ 65 + (plateConfig plate).rows - 1 ∧ dc ≤ (plateConfig plate).cols then
                              pyDictAppend m w ⟨dr, dc⟩ else m) m
                        | none => m) [] := by
                    simp [calculate_flexible_well_mappings, hk, hs1, hs2, hs3, hs4, hs5, hs6]
                  rw [hred]
                  apply foldl_inv (P := fun (m : Mappings) => ∀ kv ∈ m, ∀ d ∈ kv.2, wellInBounds d plate)
                  · intro b a ha hb
                    dsimp only
                    split
                    · next ro heq =>
                      have hro : 0 ≤ ro := by
                        have hv := mem_values_of_pyFind heq
                        simp at hv
                        rcases hv with rfl | rfl <;> decide
                      apply foldl_inv (P := fun (m : Mappings) => ∀ kv ∈ m, ∀ d ∈ kv.2, wellInBounds d plate)
                      · intro m2 w2 hw2 hm2
                        dsimp only
                        split
                        · next hg =>
                          apply allDest_pyDictAppend hm2
                          have hwb := hwells w2 hw2
                          refine wellInBounds_intro ?_ ?_ ?_ ?_ <;> dsimp only <;> omega
                        · exact hm2
                      · exact hb
                    · exact hb
                  · intro kv h
                    cases h
                · by_cases hs7 : p.strategy = "block_placement"
                  · have hred : calculate_flexible_well_mappings p kitWells plate =
                        p.blocks.foldl (fun m b =>
                          kitWells.foldl (fun m w =>
                            let kro := w.rowCode - 65
                            let kco := w.col - 1
                            let dr := b.startRow + kro
                            let dc := b.startCol + kco
                            if dr ≤ 65 + (plateConfig plate).rows - 1 ∧ dc ≤ (plateConfig plate).cols then
                              pyDictAppend m w ⟨dr, dc⟩ else m) m) [] := by
                      simp [calculate_flexible_well_mappings, hk, hs1, hs2, hs3, hs4, hs5, hs6, hs7]
                    rw [hred]
                    apply foldl_inv (P := fun (m : Mappings) => ∀ kv ∈ m, ∀ d ∈ kv.2, wellInBounds d plate)
                    · intro b a ha hb
                      have hba := hblocks a ha
                      apply foldl_inv (P := fun (m : Mappings) => ∀ kv ∈ m, ∀ d ∈ kv.2, wellInBounds d plate)
                      · intro m2 w2 hw2 hm2
                        dsimp only
                        split
                        · next hg =>
                          apply allDest_pyDictAppend hm2
                          have hwb := hwells w2 hw2
                          refine wellInBounds_intro ?_ ?_ ?_ ?_ <;> dsimp only <;> omega
                        · exact hm2
                      · exact hb
                    · intro kv h
                      cases h
                  · have hred : calculate_flexible_well_mappings p kitWells plate = [] := by
                      simp [calculate_flexible_well_mappings, hk, hs1, hs2, hs3, hs4, hs5, hs6, hs7]
                    rw [hred]
                    intro kv h
                    cases h
  · decide

/-- Witness for C1 amended: the destination B3 produced for kit well A3
under `row_placement` at `"row-B"` on a 96-well plate is within bounds. -/
theorem claim_C1_witness : wellInBounds ⟨66, 3⟩ "96" :=
  (claim_C1_flexible_bounds.1 ⟨"row_placement", ["row-B"], []⟩ [⟨65, 3⟩] "96"
    (by decide)
    (by
      intro pid hpid c hc
      rcases List.mem_singleton.mp hpid with rfl
      rw [show singleCharSeg ((pySplitDash "row-B").getD 1 "") = some 'B' from rfl] at hc
      cases hc
      decide)
    (by
      intro pid hpid n hn
      rcases List.mem_singleton.mp hpid with rfl
      rw [show pyParseInt ((pySplitDash "row-B").getD 1 "") = none from rfl] at hn
      cases hn)
    (by intro b hb; cases hb))
    (⟨65, 3⟩, [⟨66, 3⟩]) (by decide) ⟨66, 3⟩ (by decide)

/-! ### Association-list lemmas for the procedure dictionary -/

/-- Every stored procedure entry records its own dict key as its `well`. -/
def DictOk (d : List (Well × ProcItem)) : Prop := ∀ p ∈ d, p.2.well = p.1

/-- The dict's keys are pairwise distinct (true of every Python dict). -/
def NodupKeys (d : List (Well × ProcItem)) : Prop := (d.map (·.1)).Nodup

theorem pyFind_cons {κ α : Type} [DecidableEq κ] (p : κ × α) (t : List (κ × α)) (k : κ) :
    pyFind (p :: t) k = if p.1 = k then some p.2 else pyFind t k := rfl

theorem pyFind_append_some {κ α : Type} [DecidableEq κ] {d : List (κ × α)} (d' : List (κ × α))
    {k : κ} {v : α} (h : pyFind d k = some v) : pyFind (d ++ d') k = some v := by
  induction d with
  | nil => simp [pyFind] at h
  | cons p t ih =>
    rw [List.cons_append, pyFind_cons]
    rw [pyFind_cons] at h
    by_cases hp : p.1 = k
    · rwa [if_pos hp] at h ⊢
    · rw [if_neg hp] at h ⊢
      exact ih h

theorem pyFind_append_none {κ α : Type} [DecidableEq κ] {d : List (κ × α)} (d' : List (κ × α))
    {k : κ} (h : pyFind d k = none) : pyFind (d ++ d') k = pyFind d' k := by
  induction d with
  | nil => rfl
  | cons p t ih =>
    rw [List.cons_append, pyFind_cons]
    rw [pyFind_cons] at h
    by_cases hp : p.1 = k
    · rw [if_pos hp] at h
      cases h
    · rw [if_neg hp] at h ⊢
      exact ih h

theorem pyFind_ensureWell (d : List (Well × ProcItem)) (t k : Well) :
    pyFind (ensureWell d t) k =
      if k = t then some ((pyFind d t).getD ⟨t, []⟩) else pyFind d k := by
  unfold ensureWell
  by_cases hs : (pyFind d t).isSome
  · rw [if_pos hs]
    obtain ⟨e, he⟩ := Option.isSome_iff_exists.mp hs
    by_cases hk : k = t
    · subst hk
      rw [if_pos rfl, he]
      rfl
    · rw [if_neg hk]
  · rw [if_neg hs]
    have hnone : pyFind d t = none := Option.not_isSome_iff_eq_none.mp hs
    by_cases hk : k = t
    · subst hk
      rw [if_pos rfl, pyFind_append_none _ hnone, hnone, pyFind_cons, if_pos rfl]
      rfl
    · rw [if_neg hk]
      cases h2 : pyFind d k with
      | some v => exact pyFind_append_some _ h2
      | none =>
        rw [pyFind_append_none _ h2, pyFind_cons, if_neg (fun h => hk h.symm)]
        rfl

theorem pyFind_updateWell (d : List (Well × ProcItem)) (t k : Well) (km : Material) :
    pyFind (updateWell d t km) k =
      if k = t then
        (pyFind d t).map (fun it => { it with materials := mergeMaterial it.materials km })
      else pyFind d k := by
  induction d with
  | nil =>
    by_cases hk : k = t <;> simp [updateWell, pyFind, hk]
  | cons p td ih =>
    unfold updateWell
    by_cases hk : k = t
    · by_cases hp : p.1 = t
      · have hpk : p.1 = k := hp.trans hk.symm
        rw [if_pos hp, pyFind_cons, if_pos hpk, if_pos hk, pyFind_cons, if_pos hp]
        rfl
      · have hpk : ¬ p.1 = k := fun h => hp (h.trans hk)
        rw [if_neg hp, pyFind_cons, if_neg hpk, ih, if_pos hk, if_pos hk, pyFind_cons,
          if_neg hp]
    · by_cases hp : p.1 = t
      · have hpk : ¬ p.1 = k := fun h => hk ((h.symm.trans hp))
        rw [if_pos hp, pyFind_cons, if_neg hpk, if_neg hk, pyFind_cons, if_neg hpk]
      · by_cases hpk : p.1 = k
        · rw [if_neg hp, pyFind_cons, if_pos hpk, if_neg hk, pyFind_cons, if_pos hpk]
        · rw [if_neg hp, pyFind_cons, if_neg hpk, ih, if_neg hk, if_neg hk, pyFind_cons,
            if_neg hpk]

theorem keys_updateWell (d : List (Well × ProcItem)) (t : Well) (km : Material) :
    (updateWell d t km).map (·.1) = d.map (·.1) := by
  induction d with
  | nil => rfl
  | cons p td ih =>
    unfold updateWell
    by_cases hp : p.1 = t
    · rw [if_pos hp]
      simp
    · rw [if_neg hp]
      simp [ih]

theorem keys_pyDictSet_elim {κ α : Type} [DecidableEq κ] {d : List (κ × α)} {k x : κ} {v : α}
    (hx : x ∈ (pyDictSet d k v).map (·.1)) : x ∈ d.map (·.1) ∨ x = k := by
  obtain ⟨p, hp, rfl⟩ := List.mem_map.mp hx
  rcases mem_pyDictSet_elim hp with h | h
  · right; rw [h]
  · left; exact List.mem_map.mpr ⟨p, h, rfl⟩

theorem nodupKeys_pyDictSet {d : List (Well × ProcItem)} (h : NodupKeys d) (k : Well)
    (v : ProcItem) : NodupKeys (pyDictSet d k v) := by
  induction d with
  | nil => simp [pyDictSet, NodupKeys]
  | cons p t ih =>
    unfold NodupKeys at h ⊢
    unfold pyDictSet
    by_cases hp : p.1 = k
    · rw [if_pos hp]
      simp only [List.map_cons, List.nodup_cons] at h ⊢
      rw [← hp]
      exact h
    · rw [if_neg hp]
      simp only [List.map_cons, List.nodup_cons] at h ⊢
      constructor
      · intro hmem
        rcases keys_pyDictSet_elim hmem with h2 | h2
        · exact h.1 h2
        · exact hp h2
      · exact ih h.2

theorem pyFind_eq_none_of_not_mem {κ α : Type} [DecidableEq κ] {d : List (κ × α)} {k : κ}
    (h : k ∉ d.map (·.1)) : pyFind d k = none := by
  induction d with
  | nil => rfl
  | cons p t ih =>
    simp only [List.map_cons, List.mem_cons] at h
    push_neg at h
    unfold pyFind
    rw [if_neg (fun h2 => h.1 h2.symm)]
    exact ih h.2

theorem not_mem_keys_of_pyFind_none {κ α : Type} [DecidableEq κ] {d : List (κ × α)} {k : κ}
    (h : pyFind d k = none) : k ∉ d.map (·.1) := by
  induction d with
  | nil => simp
  | cons p t ih =>
    unfold pyFind at h
    by_cases hp : p.1 = k
    · rw [if_pos hp] at h
      cases h
    · rw [if_neg hp] at h
      simp only [List.map_cons, List.mem_cons]
      push_neg
      exact ⟨fun h2 => hp h2.symm, ih h⟩

theorem nodupKeys_ensureWell {d : List (Well × ProcItem)} (h : NodupKeys d) (t : Well) :
    NodupKeys (ensureWell d t) := by
  unfold ensureWell
  by_cases hs : (pyFind d t).isSome
  · rw [if_pos hs]
    exact h
  · rw [if_neg hs]
    have hnone : pyFind d t = none := Option.not_isSome_iff_eq_none.mp hs
    unfold NodupKeys at h ⊢
    rw [List.map_append]
    apply List.Nodup.append h (List.nodup_singleton t)
    intro x hx hx2
    rcases List.mem_singleton.mp hx2 with rfl
    exact not_mem_keys_of_pyFind_none hnone hx

theorem nodupKeys_updateWell {d : List (Well × ProcItem)} (h : NodupKeys d) (t : Well)
    (km : Material) : NodupKeys (updateWell d t km) := by
  unfold NodupKeys at h ⊢
  rwa [keys_updateWell]

theorem dictOk_pyDictSet {d : List (Well × ProcItem)} (h : DictOk d) {v : ProcItem} {k : Well}
    (hv : v.well = k) : DictOk (pyDictSet d k v) := by
  intro p hp
  rcases mem_pyDictSet_elim hp with h2 | h2
  · rw [h2]
    exact hv
  · exact h p h2

theorem dictOk_ensureWell {d : List (Well × ProcItem)} (h : DictOk d) (t : Well) :
    DictOk (ensureWell d t) := by
  unfold ensureWell
  by_cases hs : (pyFind d t).isSome
  · rwa [if_pos hs]
  · rw [if_neg hs]
    intro p hp
    rcases List.mem_append.mp hp with h2 | h2
    · exact h p h2
    · rcases List.mem_singleton.mp h2 with rfl
      rfl

theorem dictOk_updateWell {d : List (Well × ProcItem)} (h : DictOk d) (t : Well)
    (km : Material) : DictOk (updateWell d t km) := by
  induction d with
  | nil => intro p hp; cases hp
  | cons p td ih =>
    unfold updateWell
    by_cases hp : p.1 = t
    · rw [if_pos hp]
      intro q hq
      rcases List.mem_cons.mp hq with h2 | h2
      · rw [h2]
        exact h p (List.mem_cons_self _ _)
      · exact h q (List.mem_cons_of_mem _ h2)
    · rw [if_neg hp]
      intro q hq
      rcases List.mem_cons.mp hq with h2 | h2
      · rw [h2]
        exact h p (List.mem_cons_self _ _)
      · exact ih (fun r hr => h r (List.mem_cons_of_mem _ hr)) q h2

theorem find_of_mem_nodupKeys {d : List (Well × ProcItem)} (h : NodupKeys d) {k : Well}
    {e : ProcItem} (hmem : (k, e) ∈ d) : pyFind d k = some e := by
  induction d with
  | nil => cases hmem
  | cons p t ih =>
    unfold NodupKeys at h
    simp only [List.map_cons, List.nodup_cons] at h
    rcases List.mem_cons.mp hmem with h2 | h2
    · rw [← h2, pyFind_cons, if_pos rfl]
    · have hpk : ¬ p.1 = k := by
        intro hpk
        apply h.1
        rw [hpk]
        exact List.mem_map.mpr ⟨(k, e), h2, rfl⟩
      rw [pyFind_cons, if_neg hpk]
      exact ih h.2 h2

theorem mem_updateFirstMat {mats : List Material} {m km : Material} (hm : m ∈ mats)
    (hne : m.name ≠ km.name) : m ∈ updateFirstMat mats km := by
  induction mats with
  | nil => cases hm
  | cons x t ih =>
    unfold updateFirstMat
    by_cases hx : x.name = km.name
    · rw [if_pos hx]
      rcases List.mem_cons.mp hm with h2 | h2
      · exact absurd (h2 ▸ hx : m.name = km.name) hne
      · exact List.mem_cons_of_mem _ h2
    · rw [if_neg hx]
      rcases List.mem_cons.mp hm with h2 | h2
      · rw [h2]
        exact List.mem_cons_self _ _
      · exact List.mem_cons_of_mem _ (ih h2)

theorem mem_mergeMaterial {mats : List Material} {m km : Material} (hm : m ∈ mats)
    (hne : m.name ≠ km.name) : m ∈ mergeMaterial mats km := by
  unfold mergeMaterial
  by_cases h : mats.any (fun m2 => m2.name = km.name)
  · rw [if_pos h]
    exact mem_updateFirstMat hm hne
  · rw [if_neg h]
    exact List.mem_append_left _ hm

theorem mem_destsOf {m : Mappings} {kv : Well × List Well} (hkv : kv ∈ m) {x : Well}
    (hx : x ∈ kv.2) : x ∈ destsOf m := by
  induction m with
  | nil => cases hkv
  | cons p t ih =>
    unfold destsOf
    rcases List.mem_cons.mp hkv with h2 | h2
    · exact List.mem_append_left _ (h2 ▸ hx)
    · exact List.mem_append_right _ (ih h2)

theorem destsOf_of_pyFind {m : Mappings} {k : Well} {v : List Well}
    (h : pyFind m k = some v) : ∀ x ∈ v, x ∈ destsOf m :=
  fun _ hx => mem_destsOf (pyFind_some_mem h) hx

theorem name_mem_designNames {design : List (Well × List Material)}
    {kv : Well × List Material} (hkv : kv ∈ design) {mat : Material} (hmat : mat ∈ kv.2) :
    mat.name ∈ designNames design :=
  List.mem_map.mpr ⟨mat, List.mem_flatMap.mpr ⟨kv, hkv, hmat⟩, rfl⟩

theorem find_foldl_set_of_not_mem (l : List ProcItem) (acc : List (Well × ProcItem)) (k : Well)
    (h : ∀ x ∈ l, x.well ≠ k) :
    pyFind (l.foldl (fun d x => pyDictSet d x.well x) acc) k = pyFind acc k := by
  induction l generalizing acc with
  | nil => rfl
  | cons y t ih =>
    rw [List.foldl_cons, ih _ (fun x hx => h x (List.mem_cons_of_mem _ hx)),
      pyFind_pyDictSet, if_neg (fun h2 => h y (List.mem_cons_self _ _) h2.symm)]

theorem dictOf_find_nodup (l : List ProcItem) (acc : List (Well × ProcItem)) {it : ProcItem}
    (hit : it ∈ l) (hnd : (l.map (·.well)).Nodup) :
    pyFind (l.foldl (fun d x => pyDictSet d x.well x) acc) it.well = some it := by
  induction l generalizing acc with
  | nil => cases hit
  | cons y t ih =>
    simp only [List.map_cons, List.nodup_cons] at hnd
    rcases List.mem_cons.mp hit with h2 | h2
    · subst h2
      rw [List.foldl_cons,
        find_foldl_set_of_not_mem t _ it.well
          (fun x hx h3 => hnd.1 (h3 ▸ List.mem_map.mpr ⟨x, hx, rfl⟩)),
        pyFind_pyDictSet, if_pos rfl]
    · rw [List.foldl_cons]
      exact ih _ h2 hnd.2

/-- C8: the procedure merge engine's output is a superset of its input: every
well identifier present in the (duplicate-free-keyed) input procedure list
is present in the output; any input well that is not a destination of the
computed mapping keeps its entry unchanged; and within any output entry for
an input well, every pre-existing material whose name differs from all of
the kit design's material names is preserved untouched. -/
theorem claim_C8_merge_frame (design : List (Well × List Material)) (position : KitPosition)
    (kitWells : List Well) (current : List ProcItem) (plate : String)
    (hnd : (current.map (·.well)).Nodup) :
    (∀ it ∈ current, ∃ it2 ∈ apply_kit_design_to_procedure design position kitWells current plate,
        it2.well = it.well)
    ∧ (∀ it ∈ current,
        it.well ∉ destsOf (calculate_well_mappings position kitWells plate) →
        it ∈ apply_kit_design_to_procedure design position kitWells current plate)
    ∧ (∀ it ∈ current,
        ∀ it2 ∈ apply_kit_design_to_procedure design position kitWells current plate,
        it2.well = it.well →
        ∀ m ∈ it.materials, m.name ∉ designNames design → m ∈ it2.materials) := by
  have hout : apply_kit_design_to_procedure design position kitWells current plate =
      (design.foldl (fun d kv =>
        match pyFind (calculate_well_mappings position kitWells plate) kv.1 with
        | none => d
        | some targets =>
          targets.foldl (fun d t =>
            kv.2.foldl (fun d mat => updateWell d t { mat with source := "kit_upload" })
              (ensureWell d t)) d)
        (current.foldl (fun d it => pyDictSet d it.well it) [])).map (·.2) := rfl
  have hInv := foldl_inv
    (P := fun (d : List (Well × ProcItem)) =>
      DictOk d ∧ NodupKeys d ∧
      (∀ it ∈ current, ∃ e, pyFind d it.well = some e ∧
        ∀ m ∈ it.materials, m.name ∉ designNames design → m ∈ e.materials) ∧
      (∀ it ∈ current,
        it.well ∉ destsOf (calculate_well_mappings position kitWells plate) →
        pyFind d it.well = some it))
    (f := fun d kv =>
      match pyFind (calculate_well_mappings position kitWells plate) kv.1 with
      | none => d
      | some targets =>
        targets.foldl (fun d t =>
          kv.2.foldl (fun d mat => updateWell d t { mat with source := "kit_upload" })
            (ensureWell d t)) d)
    design
    (by
      intro d kv hkv hP
      dsimp only
      cases htgt : pyFind (calculate_well_mappings position kitWells plate) kv.1 with
      | none => exact hP
      | some targets =>
        apply foldl_inv
          (P := fun (d : List (Well × ProcItem)) =>
            DictOk d ∧ NodupKeys d ∧
            (∀ it ∈ current, ∃ e, pyFind d it.well = some e ∧
              ∀ m ∈ it.materials, m.name ∉ designNames design → m ∈ e.materials) ∧
            (∀ it ∈ current,
              it.well ∉ destsOf (calculate_well_mappings position kitWells plate) →
              pyFind d it.well = some it))
          (f := fun d t =>
            kv.2.foldl (fun d mat => updateWell d t { mat with source := "kit_upload" })
              (ensureWell d t))
          targets
        · intro d2 t ht hP2
          have htd : t ∈ destsOf (calculate_well_mappings position kitWells plate) :=
            destsOf_of_pyFind htgt t ht
          apply foldl_inv
            (P := fun (d : List (Well × ProcItem)) =>
              DictOk d ∧ NodupKeys d ∧
              (∀ it ∈ current, ∃ e, pyFind d it.well = some e ∧
                ∀ m ∈ it.materials, m.name ∉ designNames design → m ∈ e.materials) ∧
              (∀ it ∈ current,
                it.well ∉ destsOf (calculate_well_mappings position kitWells plate) →
                pyFind d it.well = some it))
            (f := fun d mat => updateWell d t { mat with source := "kit_upload" })
            kv.2
          · intro d3 mat hmat hP3
            obtain ⟨hok3, hnk3, h33, h43⟩ := hP3
            refine ⟨dictOk_updateWell hok3 _ _, nodupKeys_updateWell hnk3 _ _, ?_, ?_⟩
            · intro it hit
              obtain ⟨e, he, hem⟩ := h33 it hit
              by_cases hw : it.well = t
              · refine ⟨{ e with materials :=
                    mergeMaterial e.materials { mat with source := "kit_upload" } }, ?_, ?_⟩
                · rw [pyFind_updateWell, if_pos hw, ← hw, he]
                  rfl
                · intro m hm hnm
                  have hkmn : ({ mat with source := "kit_upload" } : Material).name
                      ∈ designNames design := by
                    show mat.name ∈ designNames design
                    exact name_mem_designNames hkv hmat
                  have hne : m.name ≠ ({ mat with source := "kit_upload" } : Material).name :=
                    fun h => hnm (h ▸ hkmn)
                  exact mem_mergeMaterial (hem m hm hnm) hne
              · refine ⟨e, ?_, hem⟩
                rw [pyFind_updateWell, if_neg hw]
                exact he
            · intro it hit hnd2
              have hw : it.well ≠ t := fun h => hnd2 (h ▸ htd)
              rw [pyFind_updateWell, if_neg hw]
              exact h43 it hit hnd2
          · obtain ⟨hok2, hnk2, h32, h42⟩ := hP2
            refine ⟨dictOk_ensureWell hok2 t, nodupKeys_ensureWell hnk2 t, ?_, ?_⟩
            · intro it hit
              obtain ⟨e, he, hem⟩ := h32 it hit
              by_cases hw : it.well = t
              · refine ⟨e, ?_, hem⟩
                rw [pyFind_ensureWell, if_pos hw, ← hw, he]
                rfl
              · refine ⟨e, ?_, hem⟩
                rw [pyFind_ensureWell, if_neg hw]
                exact he
            · intro it hit hnd2
              have hw : it.well ≠ t := fun h => hnd2 (h ▸ htd)
              rw [pyFind_ensureWell, if_neg hw]
              exact h42 it hit hnd2
        · exact hP)
    (current.foldl (fun d it => pyDictSet d it.well it) [])
    (by
      refine ⟨?_, ?_, ?_, ?_⟩
      · apply foldl_inv (P := DictOk) current
        · intro d x _ hok
          exact dictOk_pyDictSet hok rfl
        · intro p hp
          cases hp
      · apply foldl_inv (P := NodupKeys) current
        · intro d x _ hnk
          exact nodupKeys_pyDictSet hnk _ _
        · simp [NodupKeys]
      · intro it hit
        exact ⟨it, dictOf_find_nodup current [] hit hnd, fun m hm _ => hm⟩
      · intro it hit _
        exact dictOf_find_nodup current [] hit hnd)
  obtain ⟨hok, hnk, h3, h4⟩ := hInv
  rw [hout]
  refine ⟨?_, ?_, ?_⟩
  · intro it hit
    obtain ⟨e, he, _⟩ := h3 it hit
    exact ⟨e, mem_values_of_pyFind he, hok _ (pyFind_some_mem he)⟩
  · intro it hit hnd2
    exact mem_values_of_pyFind (h4 it hit hnd2)
  · intro it hit it2 hit2 hw2 m hm hnm
    obtain ⟨p, hp, hpe⟩ := List.mem_map.mp hit2
    have hkey : p.1 = it.well := by
      rw [← hw2, ← hpe]
      exact (hok p hp).symm
    have hfind : pyFind (design.foldl (fun d kv =>
        match pyFind (calculate_well_mappings position kitWells plate) kv.1 with
        | none => d
        | some targets =>
          targets.foldl (fun d t =>
            kv.2.foldl (fun d mat => updateWell d t { mat with source := "kit_upload" })
              (ensureWell d t)) d)
        (current.foldl (fun d it => pyDictSet d it.well it) [])) it.well = some p.2 := by
      rw [← hkey]
      exact find_of_mem_nodupKeys hnk hp
    obtain ⟨e, he, hem⟩ := h3 it hit
    rw [he] at hfind
    have heq : e = p.2 := Option.some.inj hfind
    rw [← hpe, ← heq]
    exact hem m hm hnm

/-- Witness for C8: applying a kit that targets only A1 leaves the untouched
well B2's entry in the output unchanged. -/
theorem claim_C8_witness :
    (⟨⟨66, 2⟩, [⟨"KCl", "", "", "", "7", "umol", "manual"⟩]⟩ : ProcItem) ∈
      apply_kit_design_to_procedure
        [(⟨65, 1⟩, [⟨"NaCl", "", "", "", "5", "umol", ""⟩])] (.str "top-left") [⟨65, 1⟩]
        [⟨⟨65, 1⟩, [⟨"NaCl", "", "", "", "3", "umol", "manual"⟩]⟩,
         ⟨⟨66, 2⟩, [⟨"KCl", "", "", "", "7", "umol", "manual"⟩]⟩] "96" :=
  (claim_C8_merge_frame
    [(⟨65, 1⟩, [⟨"NaCl", "", "", "", "5", "umol", ""⟩])] (.str "top-left") [⟨65, 1⟩]
    [⟨⟨65, 1⟩, [⟨"NaCl", "", "", "", "3", "umol", "manual"⟩]⟩,
     ⟨⟨66, 2⟩, [⟨"KCl", "", "", "", "7", "umol", "manual"⟩]⟩] "96" (by decide)).2.1
    ⟨⟨66, 2⟩, [⟨"KCl", "", "", "", "7", "umol", "manual"⟩]⟩ (by decide) (by decide)
